import Mathlib

/-!
Verification of the goplay build-cache-and-reload orchestration logic.

The Go sources (goplay.go, config.go) are shallowly embedded here.
File contents and paths are modelled as `List Char` (Go strings / file
bytes); the POSIX path separator is the character `/`.  External
collaborators (the toolchain commands, the filesystem notification
primitive) are modelled as oracles telling whether the corresponding
invocation succeeds, exactly as the spec treats them.  File writes are
modelled as reliable (an I/O error on a two-byte write is outside the
scope of the claims considered here).
-/

namespace Goplay

/-! ## Hashbang transformer (goplay.go: HASHBANG, CheckForHashbang, CommentHashbang) -/

/-- The goplay hashbang constant (goplay.go, const HASHBANG). -/
def HASHBANG : List Char := "#!/usr/bin/env goplay".toList

/-- bufio.Reader.ReadLine on the file contents: the first line without its
terminator; a trailing carriage return is dropped only when a newline
terminator was actually found. -/
def readLine (content : List Char) : List Char :=
  let l := content.takeWhile (fun c => c ≠ '\n')
  if l.length < content.length ∧ l.getLast? = some '\r' then l.dropLast else l

/-- CheckForHashbang: reads the first line and compares it with HASHBANG.
`none` models the fatal-error path when the file is empty (ReadLine fails). -/
def checkForHashbang (content : List Char) : Option Bool :=
  if content = [] then none
  else some (decide (readLine content = HASHBANG))

/-- CommentHashbang: seek to offset 0 and overwrite the first
`comment.length` bytes with `comment` (extending the file if shorter). -/
def commentHashbang (comment : List Char) (content : List Char) : List Char :=
  comment ++ content.drop comment.length

/-- The transform step of CompileBinary: comment the hashbang line out with
`//` when (and only when) the first line is exactly the hashbang. -/
def transformStep (content : List Char) : List Char :=
  if checkForHashbang content = some true then commentHashbang "//".toList content
  else content

/-- The restore step of CompileBinary: restore `#!`, guarded by the same
`hasHashbang` flag computed before the transform. -/
def restoreStep (hadHashbang : Bool) (content : List Char) : List Char :=
  if hadHashbang then commentHashbang "#!".toList content else content

/-! ## Staleness checker (goplay.go, main: compileNeeded) -/

/-- The build-needed decision of main: forced compilation or missing binary
always build; otherwise build exactly when the script's modification time
is strictly after the binary's (time.After). Times are abstracted to Nat. -/
def needsBuild (forceCompile : Bool) (binaryExists : Bool)
    (scriptTime binaryTime : Nat) : Bool :=
  if !forceCompile && binaryExists then
    decide (binaryTime < scriptTime)
  else
    true

/-! ## Go path and string functions (package path/filepath, strings), POSIX
separator. These are the collaborator library functions the embedded code
uses; they are modelled by their documented semantics. -/

/-- strings.Replace(s, "/", "_", -1): every path separator becomes an
underscore (single-character pattern and replacement, so a plain map). -/
def underscoreSeparators (s : List Char) : List Char :=
  s.map (fun c => if c = '/' then '_' else c)

/-- strings.Replace(s, pat, "", 1): remove the first occurrence of `pat`
(s unchanged when `pat` does not occur; `pat = ""` inserts nothing). -/
def removeFirst (pat : List Char) : List Char → List Char
  | [] => []
  | c :: cs =>
    if pat ≠ [] ∧ pat.isPrefixOf (c :: cs) then (c :: cs).drop pat.length
    else c :: removeFirst pat cs

/-- filepath.Ext: the suffix of the final path element starting at its last
dot; empty when the final element has no dot. -/
def filepathExt (p : List Char) : List Char :=
  let r := p.reverse
  let pre := r.takeWhile (fun c => c ≠ '/' && c ≠ '.')
  match r.drop pre.length with
  | '.' :: _ => '.' :: pre.reverse
  | _ => []

/-- filepath.Base: the last element of the path after dropping trailing
separators; "." for the empty path, "/" for an all-separator path. -/
def filepathBase (p : List Char) : List Char :=
  if p = [] then ['.']
  else
    let q := p.reverse.dropWhile (fun c => c = '/')
    if q = [] then ['/']
    else (q.takeWhile (fun c => c ≠ '/')).reverse

/-- filepath.Split: directory part (up to and including the final
separator) and file part (the rest). -/
def filepathSplit (p : List Char) : List Char × List Char :=
  let fileRev := p.reverse.takeWhile (fun c => c ≠ '/')
  (p.take (p.length - fileRev.length), fileRev.reverse)

/-- A path segment that path.Clean passes through untouched. -/
def goodSeg (s : List Char) : Bool :=
  s ≠ [] && s ≠ ['.'] && s ≠ ['.', '.'] && '/' ∉ s

/-- The segment pass of path.Clean: drop empty and "." segments, resolve
".." against the accumulated output (a rooted ".." with nothing to pop is
dropped, an unrooted one is kept). -/
def cleanSegs (rooted : Bool) : List (List Char) → List (List Char) → List (List Char)
  | acc, [] => acc.reverse
  | acc, s :: rest =>
    if s = [] ∨ s = ['.'] then cleanSegs rooted acc rest
    else if s = ['.', '.'] then
      match acc with
      | a :: as =>
        if a = ['.', '.'] then cleanSegs rooted (s :: a :: as) rest
        else cleanSegs rooted as rest
      | [] =>
        if rooted then cleanSegs rooted [] rest
        else cleanSegs rooted [s] rest
    else cleanSegs rooted (s :: acc) rest

/-- path.Clean (equal to filepath.Clean on POSIX): shortest equivalent
path, expressed segment-wise. -/
def goClean (p : List Char) : List Char :=
  if p = [] then ['.']
  else
    let rooted := p.head? = some '/'
    let segs := cleanSegs rooted [] (p.splitOn '/')
    let body := ['/'].intercalate segs
    if rooted then '/' :: body
    else if body = [] then ['.'] else body

/-- filepath.Join: join the elements from the first non-empty one with the
separator and Clean the result; empty when every element is empty. -/
def goJoin (elems : List (List Char)) : List Char :=
  let rest := elems.dropWhile (fun e => e = [])
  if rest = [] then [] else goClean (['/'].intercalate rest)

/-- filepath.Dir: the Cleaned directory part of Split. -/
def filepathDir (p : List Char) : List Char :=
  goClean (filepathSplit p).1

/-! ## Artifact cache locator (goplay.go, main: binaryDir / binaryPath) -/

/-- The binary directory computation of main: an absolute configured
goplay directory keys the cache by the full script path with separators
replaced by underscores; a relative one lives inside the script's
directory.  `toolTag` stands for filepath.Base(build.ToolDir). -/
def binaryDirOf (goplayDirectory scriptPath toolTag : List Char) : List Char :=
  if ['/'].isPrefixOf goplayDirectory then
    let subdir := underscoreSeparators scriptPath
    goJoin [goplayDirectory, subdir, toolTag]
  else
    goJoin [(filepathSplit scriptPath).1, goplayDirectory, toolTag]

/-- The binary path computation of main: the script name with the first
occurrence of its extension removed, inside the binary directory, with
".exe" appended on Windows. -/
def binaryPathOf (goplayDirectory scriptPath toolTag : List Char)
    (isWindows : Bool) : List Char :=
  let scriptName := (filepathSplit scriptPath).2
  let p := goJoin [binaryDirOf goplayDirectory scriptPath toolTag,
                   removeFirst (filepathExt scriptName) scriptName]
  if isWindows then p ++ ".exe".toList else p

/-- The spec's literal reading of the binary file name: the script's base
name with its extension stripped from the end. -/
def stripExtSuffix (name : List Char) : List Char :=
  name.take (name.length - (filepathExt name).length)

/-- The spec's literal binary-directory formula for an absolute cache
directory: keyed by the script DIRECTORY with separators replaced by
underscores. -/
def specBinaryDirAbs (cacheRoot scriptPath toolTag : List Char) : List Char :=
  cacheRoot ++ '/' :: underscoreSeparators (filepathDir scriptPath) ++
    '/' :: toolTag

/-! ## Configuration (config.go: Config, ReadConfigurationFile) -/

/-- The Config struct of config.go. -/
structure Config where
  ForceCompile : Bool
  CompleteBuild : Bool
  HotReload : Bool
  HotReloadRecursive : Bool
  HotReloadWatchExtensions : List (List Char)
  GoplayDirectory : List Char
  deriving Repr, DecidableEq

/-- strings.ToLower on one character (the keys and values here are ASCII). -/
def charToLower (c : Char) : Char :=
  if 'A' ≤ c ∧ c ≤ 'Z' then Char.ofNat (c.toNat + 32) else c

/-- Key normalisation of ReadConfigurationFile:
strings.Replace(strings.ToLower(key), "_", "", -1). -/
def normKey (k : List Char) : List Char :=
  (k.map charToLower).filter (fun c => c ≠ '_')

/-- Value normalisation of ReadConfigurationFile:
strings.ToLower(strings.Trim(value, "\t ")). -/
def normValue (v : List Char) : List Char :=
  let trimmed := ((v.dropWhile (fun c => c = '\t' ∨ c = ' ')).reverse.dropWhile
    (fun c => c = '\t' ∨ c = ' ')).reverse
  trimmed.map charToLower

/-- strconv.ParseBool: accepts exactly "1", "t", "T", "TRUE", "true",
"True", "0", "f", "F", "FALSE", "false", "False"; `none` is the error
case. -/
def goParseBool (s : List Char) : Option Bool :=
  if s = "1".toList ∨ s = "t".toList ∨ s = "T".toList ∨ s = "TRUE".toList ∨
     s = "true".toList ∨ s = "True".toList then some true
  else if s = "0".toList ∨ s = "f".toList ∨ s = "F".toList ∨ s = "FALSE".toList ∨
     s = "false".toList ∨ s = "False".toList then some false
  else none

/-- The boolean assignment of ReadConfigurationFile:
`flag, _ := strconv.ParseBool(value); value == "yes" || flag`
(the ignored error leaves flag at its false zero value). -/
def configBoolValue (value : List Char) : Bool :=
  value = "yes".toList || (goParseBool value).getD false

/-- The properties map: matches are inserted in order with their key and
value normalised; a later entry for the same key overwrites an earlier
one, so lookup returns the value of the last matching entry. -/
def lookupProp (ms : List (List Char × List Char)) (k : List Char) :
    Option (List Char) :=
  ((ms.map (fun m => (normKey m.1, normValue m.2))).reverse.find?
    (fun m => m.1 = k)).map Prod.snd

/-- ReadConfigurationFile after the regex scan: `ms` is the list of
(key, value) submatch pairs found in the file, in file order; each
recognised key present overwrites the corresponding Config field. -/
def applyConfiguration (ms : List (List Char × List Char)) (c : Config) : Config :=
  let c := match lookupProp ms "forcecompile".toList with
    | some v => { c with ForceCompile := configBoolValue v }
    | none => c
  let c := match lookupProp ms "completebuild".toList with
    | some v => { c with CompleteBuild := configBoolValue v }
    | none => c
  let c := match lookupProp ms "hotreload".toList with
    | some v => { c with HotReload := configBoolValue v }
    | none => c
  let c := match lookupProp ms "hotreloadrecursive".toList with
    | some v => { c with HotReloadRecursive := configBoolValue v }
    | none => c
  let c := match lookupProp ms "hotreloadwatchextensions".toList with
    | some v => { c with HotReloadWatchExtensions :=
        if v ≠ [] then v.splitOn ',' else [] }
    | none => c
  let c := match lookupProp ms "goplaydirectory".toList with
    | some v => { c with GoplayDirectory := v }
    | none => c
  c

/-! ## Watch-event filter (goplay.go, RunWatchAndExit: watcher goroutine) -/

/-- One fsnotify event as the listener inspects it: the reported path and
whether it is an attribute-only event (event.IsAttrib()). -/
structure WatchEvent where
  name : List Char
  isAttrib : Bool
  deriving Repr, DecidableEq

/-- Modelled from the spec: the `Contains` method on the watched-extension
set, whose defining file is not in the sources; the spec reads "an entry
whose extension is in the configured watched-extension set", i.e. list
membership. -/
def extensionSetContains (exts : List (List Char)) (e : List Char) : Bool :=
  exts.contains e

/-- The extension the watcher goroutine computes for an event's base
name: filepath.Ext with the leading dot removed when present. -/
def eventExtension (fileName : List Char) : List Char :=
  let fileExtension := filepathExt fileName
  if ['.'].isPrefixOf fileExtension then fileExtension.drop 1 else fileExtension

/-- The event handler body of the watcher goroutine: given the restart
flag, decide the new flag and whether the running child is killed. -/
def watchStep (scriptPath : List Char) (exts : List (List Char))
    (restart : Bool) (ev : WatchEvent) : Bool × Bool :=
  if !restart && !ev.isAttrib then
    let fileName := filepathBase ev.name
    if fileName = filepathBase scriptPath ∨
        extensionSetContains exts (eventExtension fileName)
    then (true, true)
    else (restart, false)
  else (restart, false)

/-! ## Build executor (goplay.go, CompileBinary) -/

/-- Oracle for the external toolchain invocations CompileBinary makes:
whether each succeeds and the combined output it produces.  `archChar` is
build.ArchChar(runtime.GOARCH). -/
structure BuildEnv where
  buildOk : Bool
  buildOut : List Char
  compileOk : Bool
  compileOut : List Char
  linkOk : Bool
  linkOut : List Char
  removeOk : Bool
  archChar : List Char
  deriving Repr, DecidableEq

/-- The system state CompileBinary touches: the script file's bytes, the
process working directory, and whether the intermediate object and the
final binary exist. -/
structure SysState where
  content : List Char
  cwd : List Char
  objectExists : Bool
  binaryExists : Bool
  deriving Repr, DecidableEq

/-- The recovered panic payloads of CompileBinary (fed to log.Fatal after
the deferred hashbang restore has run). -/
inductive BuildErr where
  | goBuildErr (out : List Char)
  | compileErr (out : List Char)
  | linkErr (out : List Char)
  | removeErr
  deriving Repr, DecidableEq

/-- The observable outcome of one CompileBinary call: the final system
state, the recovered panic (none on success), how many times the hashbang
restore write ran, the working directory in effect when the external
build tool was invoked (go-build mode), and the intermediate object path
used (single-file mode). -/
structure CBResult where
  state : SysState
  err : Option BuildErr
  restores : Nat
  buildCwd : Option (List Char)
  objectPath : Option (List Char)
  deriving Repr, DecidableEq

/-- CompileBinary.  Control flow is translated with Go's defer semantics
made explicit: the body runs to a normal return or to a panic, then the
deferred chdir-back (registered only in go-build mode when the directory
changed, and running first because defers run last-in first-out), then
the deferred hashbang restore, which always runs before the recovered
panic is passed to log.Fatal.  Chdir and file writes are modelled as
reliable. -/
def compileBinary (env : BuildEnv) (scriptPath binaryPath : List Char)
    (goBuild : Bool) (s : SysState) : CBResult :=
  let scriptDir := filepathDir scriptPath
  let binaryDir := filepathDir binaryPath
  let hasHashbang := checkForHashbang s.content = some true
  let content₁ := if hasHashbang then commentHashbang "//".toList s.content
    else s.content
  let s₁ : SysState := { s with content := content₁ }
  -- the body between the deferred blocks; the third component is the
  -- chdir-back defer registered by the body (the directory to return to)
  let body : SysState × Option BuildErr × Option (List Char) × Option (List Char)
      × Option (List Char) :=
    if goBuild then
      let currentDir := s₁.cwd
      let chdirBack : Option (List Char) :=
        if currentDir ≠ scriptDir then some currentDir else none
      let sIn : SysState :=
        if currentDir ≠ scriptDir then { s₁ with cwd := scriptDir } else s₁
      if env.buildOk then
        ({ sIn with binaryExists := true }, none, chdirBack, some sIn.cwd, none)
      else
        (sIn, some (BuildErr.goBuildErr env.buildOut), chdirBack, some sIn.cwd, none)
    else
      let objectPath := goJoin [binaryDir, "_go_.".toList ++ env.archChar]
      if env.compileOk then
        let s₂ : SysState := { s₁ with objectExists := true }
        if env.linkOk then
          let s₃ : SysState := { s₂ with binaryExists := true }
          if env.removeOk then
            ({ s₃ with objectExists := false }, none, none, none, some objectPath)
          else
            (s₃, some BuildErr.removeErr, none, none, some objectPath)
        else
          (s₂, some (BuildErr.linkErr env.linkOut), none, none, some objectPath)
      else
        (s₁, some (BuildErr.compileErr env.compileOut), none, none, some objectPath)
  let (s₂, err, chdirBack, buildCwd, objectPath) := body
  -- the deferred chdir-back runs first (last-in first-out), on success
  -- and panic alike
  let s₃ : SysState := match chdirBack with
    | some d => { s₂ with cwd := d }
    | none => s₂
  -- deferred hashbang restore, on every exit path
  let contentFinal := restoreStep hasHashbang s₃.content
  { state := { s₃ with content := contentFinal }
    err := err
    restores := if hasHashbang then 1 else 0
    buildCwd := buildCwd
    objectPath := objectPath }

/-! ## Directory walk and watch targets (goplay.go, GetSubdirectories and
RunWatchAndExit watch setup) -/

/-- A directory tree on disk: a directory's own name and its
subdirectories (plain files are irrelevant to the watch-target set, since
they fail the IsDir test of GetSubdirectories). -/
inductive DirTree where
  | node : List Char → List DirTree → DirTree

/-- The name of a directory node (os.FileInfo.Name()). -/
def DirTree.dirName : DirTree → List Char
  | .node n _ => n

/-- The subdirectories of a directory node. -/
def DirTree.subs : DirTree → List DirTree
  | .node _ ts => ts

mutual

/-- filepath.Walk over a directory tree in preorder, collecting every
visited directory as its full path paired with its own name.  `p` is the
full path of the root node. -/
def walkDirs (p : List Char) : DirTree → List (List Char × List Char)
  | .node name subs => (p, name) :: walkDirsList p subs

/-- Walk of a list of sibling subdirectories of the directory at `p`. -/
def walkDirsList (p : List Char) : List DirTree → List (List Char × List Char)
  | [] => []
  | .node n subs :: ts =>
    walkDirs (p ++ '/' :: n) (.node n subs) ++ walkDirsList p ts

end

/-- GetSubdirectories: walk from the script's directory and keep every
directory whose own name is not dot-prefixed and whose path is not the
start path itself.  `tree` is the on-disk tree rooted at
filepath.Dir(scriptPath). -/
def getSubdirectories (scriptPath : List Char) (tree : DirTree) : List (List Char) :=
  let startPath := filepathDir scriptPath
  ((walkDirs startPath tree).filter
    (fun pr => !(['.'].isPrefixOf pr.2) && pr.1 ≠ startPath)).map Prod.fst

/-- The watch targets RunWatchAndExit registers when hot reload is
enabled: the script file alone, or its directory when whole-directory
build or recursive reload is active, plus — in recursive mode only — the
GetSubdirectories result. -/
def watchTargets (completeBuild hotReloadRecursive : Bool)
    (scriptPath : List Char) (tree : DirTree) : List (List Char) :=
  let toWatch := if completeBuild || hotReloadRecursive then filepathDir scriptPath
    else scriptPath
  toWatch :: (if hotReloadRecursive then getSubdirectories scriptPath tree else [])

/-! ## Exit-status translation (goplay.go, RunWatchAndExit tail) -/

/-- The result of cmd.Wait as far as the exit translation inspects it:
`none` is a clean exit (no error), `some n` an exec.ExitError carrying the
child's numeric exit status. -/
def runExitCode (waitErr : Option Nat) : Nat :=
  match waitErr with
  | some n => n
  | none => 0

/-- The supervisor loop of RunWatchAndExit: each iteration is the pair of
the child's wait result and the restart flag observed after the wait.  A
pending restart re-enters the loop (rebuild + restart); the first
iteration without a pending restart breaks out and the process terminates
with the translated exit code (os.Exit for an ExitError, falling off main,
hence code 0, otherwise).  `none` means the trace never terminates. -/
def superviseExit : List (Option Nat × Bool) → Option Nat
  | [] => none
  | (waitErr, restartPending) :: rest =>
    if restartPending then superviseExit rest
    else some (runExitCode waitErr)

/-! ## Theorems -/

/-- C2: the build-needed decision — force always builds; a missing binary
always builds regardless of force; otherwise build exactly when the
script's modification time is strictly after the binary's, so equal or
older script timestamps skip the build. -/
theorem needsBuild_policy (force binExists : Bool) (scriptTime binTime : Nat) :
    (force = true → needsBuild force binExists scriptTime binTime = true) ∧
    (binExists = false → needsBuild force binExists scriptTime binTime = true) ∧
    (force = false → binExists = true →
      (needsBuild force binExists scriptTime binTime = true ↔
        binTime < scriptTime)) := by
  refine ⟨fun h => ?_, fun h => ?_, fun hf hb => ?_⟩ <;> subst_vars <;>
    simp [needsBuild]

theorem needsBuild_policy_check :
    needsBuild true true 9 0 = true ∧ needsBuild false false 0 5 = true ∧
      (needsBuild false true 5 3 = true ↔ 3 < 5) :=
  ⟨(needsBuild_policy true true 9 0).1 rfl,
   (needsBuild_policy false false 0 5).2.1 rfl,
   (needsBuild_policy false true 5 3).2.2 rfl rfl⟩

/-- C7: when the supervised child exits on its own while no restart is
pending, a distinguishable exit code N makes the tool terminate with N,
and a clean exit makes it terminate with 0 (pending iterations before
that only re-enter the loop). -/
theorem superviseExit_propagates (pre : List (Option Nat × Bool))
    (waitErr : Option Nat) (rest : List (Option Nat × Bool))
    (hpre : ∀ x ∈ pre, x.2 = true) :
    (∀ n, waitErr = some n →
      superviseExit (pre ++ (waitErr, false) :: rest) = some n) ∧
    (waitErr = none → superviseExit (pre ++ (waitErr, false) :: rest) = some 0) := by
  induction pre with
  | nil =>
    constructor
    · intro n hn
      subst hn
      simp [superviseExit, runExitCode]
    · intro hn
      subst hn
      simp [superviseExit, runExitCode]
  | cons x xs ih =>
    obtain ⟨e, b⟩ := x
    have hb : b = true := hpre (e, b) (List.mem_cons_self _ _)
    subst hb
    have ih := ih (fun y hy => hpre y (List.mem_cons_of_mem _ hy))
    simpa [superviseExit] using ih

theorem superviseExit_propagates_check :
    superviseExit [(some 3, true), (some 7, false)] = some 7 :=
  (superviseExit_propagates [(some 3, true)] (some 7) [] (by decide)).1 7 rfl

/-- C5: while the child runs, an event kills and schedules a rebuild
exactly when it is not attribute-only and no restart is pending and its
base name matches the script's base name or its extension is in the
watched set; an event arriving while a restart is pending changes nothing
(coalescing). -/
theorem watchStep_filter (scriptPath : List Char) (exts : List (List Char))
    (restart : Bool) (ev : WatchEvent) :
    ((watchStep scriptPath exts restart ev).2 = true ↔
      (restart = false ∧ ev.isAttrib = false ∧
        (filepathBase ev.name = filepathBase scriptPath ∨
          extensionSetContains exts (eventExtension (filepathBase ev.name)) = true))) ∧
    (restart = true → watchStep scriptPath exts restart ev = (restart, false)) := by
  constructor
  · by_cases hc : filepathBase ev.name = filepathBase scriptPath ∨
        extensionSetContains exts (eventExtension (filepathBase ev.name)) = true
    · cases hr : restart <;> cases hAttrib : ev.isAttrib <;>
        simp [watchStep, hAttrib, hc]
    · cases hr : restart <;> cases hAttrib : ev.isAttrib <;>
        simp [watchStep, hAttrib, hc]
  · intro h
    subst h
    simp [watchStep]

theorem watchStep_filter_check :
    watchStep "/a/b.go".toList ["go".toList] true ⟨"/a/x.go".toList, false⟩
      = (true, false) :=
  (watchStep_filter "/a/b.go".toList ["go".toList] true
    ⟨"/a/x.go".toList, false⟩).2 rfl

/-- Unfolding a takeWhile that produced a cons: the scanned list starts
with the same head. -/
theorem takeWhile_eq_cons {p : Char → Bool} {l t : List Char} {a : Char}
    (h : l.takeWhile p = a :: t) : ∃ u, l = a :: u ∧ u.takeWhile p = t := by
  cases l with
  | nil => simp at h
  | cons c cs =>
    rw [List.takeWhile_cons] at h
    by_cases hc : p c
    · rw [if_pos hc] at h
      injection h with h1 h2
      exact ⟨cs, by rw [h1], h2⟩
    · rw [if_neg hc] at h
      exact absurd h (by simp)

/-- A file whose first line is the recognised hashbang starts with the
two bytes `#!`. -/
theorem hashbangShape {content : List Char}
    (h : checkForHashbang content = some true) :
    ∃ rest, content = '#' :: '!' :: rest := by
  by_cases hne : content = []
  · simp [checkForHashbang, hne] at h
  · simp only [checkForHashbang, if_neg hne, Option.some.injEq,
      decide_eq_true_eq] at h
    have hHB : HASHBANG = '#' :: '!' :: "/usr/bin/env goplay".toList := by decide
    rw [readLine] at h
    by_cases hcond : (content.takeWhile (fun c => c ≠ '\n')).length < content.length ∧
        (content.takeWhile (fun c => c ≠ '\n')).getLast? = some '\r'
    · rw [if_pos hcond] at h
      rcases List.eq_nil_or_concat (content.takeWhile (fun c => c ≠ '\n')) with
        hl | ⟨ys, c, hl⟩
      · rw [hl] at hcond
        simp at hcond
      · rw [List.concat_eq_append] at hl
        rw [hl, List.dropLast_concat] at h
        subst h
        rw [hHB] at hl
        have htw : content.takeWhile (fun c => c ≠ '\n') =
            '#' :: '!' :: ("/usr/bin/env goplay".toList ++ [c]) := by
          rw [hl]
          simp
        obtain ⟨u, hu, htu⟩ := takeWhile_eq_cons htw
        obtain ⟨v, hv, _⟩ := takeWhile_eq_cons htu
        exact ⟨v, by rw [hu, hv]⟩
    · rw [if_neg hcond] at h
      rw [hHB] at h
      obtain ⟨u, hu, htu⟩ := takeWhile_eq_cons h
      obtain ⟨v, hv, _⟩ := takeWhile_eq_cons htu
      exact ⟨v, by rw [hu, hv]⟩

/-- C4: the hashbang round trip — on a file whose first line is exactly
the hashbang, commenting with `//` and restoring `#!` gives back the
byte-identical file, neither overwrite changes the length or any byte
past the first two; on any other first line the transform leaves the file
unmodified. -/
theorem hashbang_roundtrip (content : List Char) :
    (checkForHashbang content = some true →
      restoreStep true (transformStep content) = content ∧
      (transformStep content).length = content.length ∧
      (transformStep content).drop 2 = content.drop 2 ∧
      (restoreStep true (transformStep content)).length = content.length ∧
      (restoreStep true (transformStep content)).drop 2 = content.drop 2) ∧
    (checkForHashbang content = some false →
      transformStep content = content) := by
  constructor
  · intro h
    obtain ⟨rest, hrest⟩ := hashbangShape h
    subst hrest
    simp [transformStep, h, restoreStep, commentHashbang]
  · intro h
    simp [transformStep, h]

theorem hashbang_roundtrip_check :
    restoreStep true (transformStep "#!/usr/bin/env goplay\nmain".toList)
      = "#!/usr/bin/env goplay\nmain".toList :=
  ((hashbang_roundtrip "#!/usr/bin/env goplay\nmain".toList).1 (by decide)).1

/-- C1: every CompileBinary call on a script whose first line is the
recognised hashbang runs the `#!` restore exactly once and leaves the
script byte-identical to the original, on every exit path — go-build or
single-file mode, success, any toolchain failure, or the recovered build
panic. -/
theorem compileBinary_restore (env : BuildEnv) (scriptPath binaryPath : List Char)
    (goBuild : Bool) (s : SysState)
    (h : checkForHashbang s.content = some true) :
    (compileBinary env scriptPath binaryPath goBuild s).state.content = s.content ∧
    (compileBinary env scriptPath binaryPath goBuild s).restores = 1 := by
  obtain ⟨rest, hrest⟩ := hashbangShape h
  rw [hrest] at h
  cases goBuild <;> cases henv1 : env.buildOk <;> cases henv2 : env.compileOk <;>
    cases henv3 : env.linkOk <;> cases henv4 : env.removeOk <;>
    by_cases hcd : s.cwd ≠ filepathDir scriptPath <;>
    simp [compileBinary, h, henv1, henv2, henv3, henv4, hcd, restoreStep,
      commentHashbang, hrest]

theorem compileBinary_restore_check :
    (compileBinary ⟨false, "boom".toList, false, [], false, [], false, "6".toList⟩
        "/a/b.go".toList "/a/.goplay/t/b".toList true
        ⟨"#!/usr/bin/env goplay\nmain".toList, "/w".toList, false, false⟩).state.content
      = "#!/usr/bin/env goplay\nmain".toList ∧
    (compileBinary ⟨false, "boom".toList, false, [], false, [], false, "6".toList⟩
        "/a/b.go".toList "/a/.goplay/t/b".toList true
        ⟨"#!/usr/bin/env goplay\nmain".toList, "/w".toList, false, false⟩).restores = 1 :=
  compileBinary_restore _ _ _ _ _ (by decide)

/-- C9: in whole-directory build mode with the working directory away
from the script's directory, the build tool runs with the script's
directory as working directory and the previous working directory is
restored before CompileBinary completes, also when the build tool
fails. -/
theorem compileBinary_cwd (env : BuildEnv) (scriptPath binaryPath : List Char)
    (s : SysState) (h : s.cwd ≠ filepathDir scriptPath) :
    (compileBinary env scriptPath binaryPath true s).buildCwd =
      some (filepathDir scriptPath) ∧
    (compileBinary env scriptPath binaryPath true s).state.cwd = s.cwd := by
  by_cases hh : checkForHashbang s.content = some true <;>
    cases henv : env.buildOk <;>
    simp [compileBinary, h, hh, henv, restoreStep]

theorem compileBinary_cwd_check :
    (compileBinary ⟨false, "boom".toList, true, [], true, [], true, "6".toList⟩
        "/a/b.go".toList "/a/.goplay/t/b".toList true
        ⟨"package main\n".toList, "/w".toList, false, false⟩).buildCwd
      = some "/a".toList ∧
    (compileBinary ⟨false, "boom".toList, true, [], true, [], true, "6".toList⟩
        "/a/b.go".toList "/a/.goplay/t/b".toList true
        ⟨"package main\n".toList, "/w".toList, false, false⟩).state.cwd
      = "/w".toList := by
  have h := compileBinary_cwd
    ⟨false, "boom".toList, true, [], true, [], true, "6".toList⟩
    "/a/b.go".toList "/a/.goplay/t/b".toList
    ⟨"package main\n".toList, "/w".toList, false, false⟩ (by decide)
  simpa using h

/-- C6 (amended): single-file mode compiles to the deterministic object
path inside the binary directory, links, then deletes the object; a
compile or link failure aborts with the captured output as payload; the
intermediate object is left behind exactly when compilation succeeded and
then the link or the deletion step failed. -/
theorem compileBinary_singleFile (env : BuildEnv)
    (scriptPath binaryPath : List Char) (s : SysState)
    (h : s.objectExists = false) :
    (compileBinary env scriptPath binaryPath false s).objectPath =
      some (goJoin [filepathDir binaryPath, "_go_.".toList ++ env.archChar]) ∧
    ((compileBinary env scriptPath binaryPath false s).err = none ↔
      env.compileOk = true ∧ env.linkOk = true ∧ env.removeOk = true) ∧
    (env.compileOk = false →
      (compileBinary env scriptPath binaryPath false s).err =
        some (BuildErr.compileErr env.compileOut)) ∧
    (env.compileOk = true → env.linkOk = false →
      (compileBinary env scriptPath binaryPath false s).err =
        some (BuildErr.linkErr env.linkOut)) ∧
    (env.compileOk = true → env.linkOk = true → env.removeOk = false →
      (compileBinary env scriptPath binaryPath false s).err =
        some BuildErr.removeErr) ∧
    ((compileBinary env scriptPath binaryPath false s).state.objectExists =
      (env.compileOk && (!env.linkOk || !env.removeOk))) ∧
    ((compileBinary env scriptPath binaryPath false s).state.binaryExists =
      (env.compileOk && env.linkOk || s.binaryExists)) := by
  by_cases hh : checkForHashbang s.content = some true <;>
    cases henv2 : env.compileOk <;> cases henv3 : env.linkOk <;>
    cases henv4 : env.removeOk <;>
    simp [compileBinary, h, hh, henv2, henv3, henv4, restoreStep]

theorem compileBinary_singleFile_check :
    (compileBinary ⟨true, [], true, [], false, "err".toList, true, "6".toList⟩
        "/a/b.go".toList "/a/.goplay/t/b".toList false
        ⟨"package main\n".toList, "/w".toList, false, false⟩).state.objectExists
      = true := by
  have h := compileBinary_singleFile
    ⟨true, [], true, [], false, "err".toList, true, "6".toList⟩
    "/a/b.go".toList "/a/.goplay/t/b".toList
    ⟨"package main\n".toList, "/w".toList, false, false⟩ rfl
  simpa using h.2.2.2.2.2.1

/-- C6, the claim as stated, refuted: with a successful compile, a failing
link and a deletion step that would succeed, the intermediate object is
left behind although the deletion step did not fail. -/
theorem compileBinary_objectLeft_counterexample :
    ((compileBinary ⟨true, [], true, [], false, "err".toList, true, "6".toList⟩
        "/a/b.go".toList "/a/.goplay/t/b".toList false
        ⟨"package main\n".toList, "/w".toList, false, false⟩).state.objectExists
      = true) ∧
    (⟨true, [], true, [], false, "err".toList, true,
      "6".toList⟩ : BuildEnv).removeOk = true := by
  decide

/-- Looking a key up after inserting a single match. -/
theorem lookupProp_single (rawKey rawValue k : List Char) :
    lookupProp [(rawKey, rawValue)] k =
      if normKey rawKey = k then some (normValue rawValue) else none := by
  simp only [lookupProp, List.map_cons, List.map_nil, List.reverse_cons,
    List.reverse_nil, List.nil_append, List.find?]
  by_cases h : normKey rawKey = k
  · simp [h]
  · simp [h]

/-- The boolean-value rule of ReadConfigurationFile, unfolded. -/
theorem configBoolValue_iff (v : List Char) :
    configBoolValue v = true ↔ (v = "yes".toList ∨ goParseBool v = some true) := by
  cases hgp : goParseBool v with
  | none => simp [configBoolValue, hgp]
  | some b => cases b <;> simp [configBoolValue, hgp]

/-- C10 (amended): configuration keys are matched after lowercasing and
removing underscores (so Force_Compile and forcecompile coincide), and a
boolean setting becomes true exactly when its value — after the parser's
trimming of tabs and spaces and lowercasing — is "yes" or a string
ParseBool accepts as true; any other value present sets it to false. -/
theorem readConfiguration_boolKeys (rawKey rawValue : List Char) (c : Config) :
    normKey "Force_Compile".toList = normKey "forcecompile".toList ∧
    (normKey rawKey = "forcecompile".toList →
      ((applyConfiguration [(rawKey, rawValue)] c).ForceCompile = true ↔
        (normValue rawValue = "yes".toList ∨
          goParseBool (normValue rawValue) = some true))) ∧
    (normKey rawKey = "completebuild".toList →
      ((applyConfiguration [(rawKey, rawValue)] c).CompleteBuild = true ↔
        (normValue rawValue = "yes".toList ∨
          goParseBool (normValue rawValue) = some true))) ∧
    (normKey rawKey = "hotreload".toList →
      ((applyConfiguration [(rawKey, rawValue)] c).HotReload = true ↔
        (normValue rawValue = "yes".toList ∨
          goParseBool (normValue rawValue) = some true))) ∧
    (normKey rawKey = "hotreloadrecursive".toList →
      ((applyConfiguration [(rawKey, rawValue)] c).HotReloadRecursive = true ↔
        (normValue rawValue = "yes".toList ∨
          goParseBool (normValue rawValue) = some true))) := by
  refine ⟨by decide, fun h => ?_, fun h => ?_, fun h => ?_, fun h => ?_⟩ <;>
    simp [applyConfiguration, lookupProp_single, h, configBoolValue_iff]

theorem readConfiguration_boolKeys_check :
    (applyConfiguration [("Force_Compile".toList, " yEs".toList)]
      ⟨false, false, false, false, [], []⟩).ForceCompile = true :=
  ((readConfiguration_boolKeys "Force_Compile".toList " yEs".toList
      ⟨false, false, false, false, [], []⟩).2.1 (by decide)).mpr (by decide)

/-- C10, the claim as stated, refuted: the raw value "yEs" is neither the
string "yes" nor accepted as true by ParseBool, yet ReadConfigurationFile
sets the boolean setting to true (it lowercases the value first). -/
theorem readConfiguration_literal_counterexample :
    (applyConfiguration [("forcecompile".toList, "yEs".toList)]
      ⟨false, false, false, false, [], []⟩).ForceCompile = true ∧
    ¬ ("yEs".toList = "yes".toList ∨ goParseBool "yEs".toList = some true) := by
  decide

mutual

/-- Every directory the walk visits lies at or below the root path. -/
theorem walkDirs_path_le (p : List Char) : (t : DirTree) →
    ∀ pr ∈ walkDirs p t, p.length ≤ pr.1.length
  | .node name subs, pr, h => by
    rw [walkDirs] at h
    rcases List.mem_cons.mp h with h | h
    · simp [h]
    · exact Nat.le_of_lt (walkDirsList_path_lt p subs pr h)

/-- Every directory below a directory at `p` has a strictly longer path. -/
theorem walkDirsList_path_lt (p : List Char) : (ts : List DirTree) →
    ∀ pr ∈ walkDirsList p ts, p.length < pr.1.length
  | [], pr, h => by
    rw [walkDirsList] at h
    exact absurd h (List.not_mem_nil pr)
  | .node n subs :: ts, pr, h => by
    rw [walkDirsList] at h
    rcases List.mem_append.mp h with h | h
    · have h1 := walkDirs_path_le (p ++ '/' :: n) (.node n subs) pr h
      have h2 : p.length < (p ++ '/' :: n).length := by simp
      omega
    · exact walkDirsList_path_lt p ts pr h

end

/-- C8 (amended): with hot reload enabled, the watch is on the script
file alone when neither whole-directory build nor recursive reload is
active; on the script's directory when either is active; and only in
recursive-reload mode additionally on every directory strictly below it
whose own name is not dot-prefixed. -/
theorem watchTargets_amended (completeBuild hotReloadRecursive : Bool)
    (scriptPath : List Char) (tree : DirTree) :
    (completeBuild = false → hotReloadRecursive = false →
      watchTargets completeBuild hotReloadRecursive scriptPath tree = [scriptPath]) ∧
    (hotReloadRecursive = false →
      watchTargets completeBuild hotReloadRecursive scriptPath tree =
        [if completeBuild then filepathDir scriptPath else scriptPath]) ∧
    (hotReloadRecursive = true →
      watchTargets completeBuild hotReloadRecursive scriptPath tree =
        filepathDir scriptPath ::
          ((walkDirsList (filepathDir scriptPath) tree.subs).filter
            (fun pr => !(['.'].isPrefixOf pr.2))).map Prod.fst) := by
  refine ⟨fun h1 h2 => ?_, fun h2 => ?_, fun h2 => ?_⟩
  · subst h1
    subst h2
    simp [watchTargets]
  · subst h2
    cases completeBuild <;> simp [watchTargets]
  · subst h2
    cases tree with
    | node name subs =>
      have hcong : (walkDirsList (filepathDir scriptPath) subs).filter
            (fun pr => !(['.'].isPrefixOf pr.2) &&
              !decide (pr.1 = filepathDir scriptPath))
          = (walkDirsList (filepathDir scriptPath) subs).filter
            (fun pr => !(['.'].isPrefixOf pr.2)) := by
        apply List.filter_congr
        intro pr hpr
        have hlt := walkDirsList_path_lt (filepathDir scriptPath) subs pr hpr
        have hne : pr.1 ≠ filepathDir scriptPath := by
          intro he
          rw [he] at hlt
          omega
        simp [hne]
      simp [watchTargets, DirTree.subs, getSubdirectories, walkDirs, hcong]

theorem watchTargets_amended_check :
    watchTargets false true "/a/b.go".toList
      (.node "a".toList [.node "sub".toList []])
      = ["/a".toList, "/a/sub".toList] := by
  have h := (watchTargets_amended false true "/a/b.go".toList
    (.node "a".toList [.node "sub".toList []])).2.2 rfl
  rw [h]
  decide

/-- C8, the claim as stated, refuted: in whole-directory build mode
without recursive reload, the watch covers only the script's directory,
not its directory tree with non-hidden subdirectories. -/
theorem watchTargets_counterexample :
    watchTargets true false "/a/b.go".toList
        (.node "a".toList [.node "sub".toList []])
      ≠ filepathDir "/a/b.go".toList ::
        ((walkDirsList (filepathDir "/a/b.go".toList)
            [DirTree.node "sub".toList []]).filter
          (fun pr => !(['.'].isPrefixOf pr.2))).map Prod.fst := by
  decide

/-- Intercalating a cons with a nonempty tail. -/
theorem intercalate_cons (x : List Char) (ys : List (List Char)) (h : ys ≠ []) :
    ['/'].intercalate (x :: ys) = x ++ '/' :: ['/'].intercalate ys := by
  cases ys with
  | nil => exact absurd rfl h
  | cons y ys => simp [List.intercalate, List.intersperse]

/-- Intercalating a single segment. -/
theorem intercalate_singleton (x : List Char) : ['/'].intercalate [x] = x := by
  simp [List.intercalate, List.intersperse]

/-- Intercalation distributes over appending nonempty segment lists, with
one separator in the middle. -/
theorem intercalate_append_segs (xs ys : List (List Char)) (hx : xs ≠ [])
    (hy : ys ≠ []) :
    ['/'].intercalate (xs ++ ys) =
      ['/'].intercalate xs ++ '/' :: ['/'].intercalate ys := by
  induction xs with
  | nil => exact absurd rfl hx
  | cons x xs ih =>
    cases xs with
    | nil => simp [intercalate_cons x ys hy, intercalate_singleton]
    | cons x2 xs2 =>
      rw [List.cons_append, intercalate_cons x (x2 :: xs2 ++ ys) (by simp),
        intercalate_cons x (x2 :: xs2) (by simp), ih (by simp)]
      simp

/-- The segment pass of Clean is the identity (up to dropped empty
segments) on a list of clean segments. -/
theorem cleanSegs_good (rooted : Bool) (acc : List (List Char))
    (ss : List (List Char)) (h : ∀ s ∈ ss, s = [] ∨ goodSeg s = true) :
    cleanSegs rooted acc ss = acc.reverse ++ ss.filter (fun s => !s.isEmpty) := by
  induction ss generalizing acc with
  | nil => simp [cleanSegs]
  | cons s ss ih =>
    rcases h s (by simp) with hs | hs
    · subst hs
      simp only [cleanSegs]
      rw [if_pos (Or.inl trivial)]
      rw [ih acc (fun t ht => h t (by simp [ht]))]
      simp
    · simp only [goodSeg, Bool.and_eq_true, decide_eq_true_eq] at hs
      obtain ⟨⟨⟨h1, h2⟩, h3⟩, h4⟩ := hs
      simp only [cleanSegs]
      rw [if_neg (by simp [h1, h2]), if_neg h3]
      rw [ih (s :: acc) (fun t ht => h t (by simp [ht]))]
      have h5 : s.isEmpty = false := by
        cases s
        · exact absurd rfl h1
        · rfl
      simp [h5]

/-- splitOn of a path starting with the separator. -/
theorem splitOn_cons_slash (xs : List Char) :
    ('/' :: xs).splitOn '/' = [] :: xs.splitOn '/' := by
  simp [List.splitOn, List.splitOnP_cons]

/-- Clean is the identity (up to dropped empty segments) on a rooted path
made of clean segments. -/
theorem goClean_rooted (segs : List (List Char)) (hne : segs ≠ [])
    (h : ∀ s ∈ segs, s = [] ∨ goodSeg s = true) :
    goClean ('/' :: ['/'].intercalate segs) =
      '/' :: ['/'].intercalate (segs.filter (fun s => !s.isEmpty)) := by
  have hx : ∀ l ∈ segs, '/' ∉ l := by
    intro l hl
    rcases h l hl with h1 | h1
    · subst h1
      simp
    · simp only [goodSeg, Bool.and_eq_true, decide_eq_true_eq] at h1
      exact h1.2
  simp only [goClean, if_neg (by simp : ¬('/' :: ['/'].intercalate segs = [])),
    List.head?_cons, splitOn_cons_slash]
  rw [List.splitOn_intercalate segs '/' hx hne]
  rw [cleanSegs_good _ [] ([] :: segs) (fun t ht => by
    rcases List.mem_cons.mp ht with ht | ht
    · exact Or.inl ht
    · exact h t ht)]
  simp

/-- Join with a nonempty first element is Clean of the intercalation. -/
theorem goJoin_eq (a : List Char) (rest : List (List Char)) (ha : a ≠ []) :
    goJoin (a :: rest) = goClean (['/'].intercalate (a :: rest)) := by
  simp [goJoin, List.dropWhile_cons, ha]

/-- A clean segment is nonempty. -/
theorem goodSeg_not_isEmpty {s : List Char} (h : goodSeg s = true) :
    s.isEmpty = false := by
  simp only [goodSeg, Bool.and_eq_true, decide_eq_true_eq] at h
  cases s with
  | nil => exact absurd rfl h.1.1.1
  | cons c cs => rfl

/-- Join of a rooted base with two further clean segments collapses to
plain concatenation (up to empty segments dropped from the base). -/
theorem goJoin3_rooted (segsA : List (List Char)) (b c : List Char)
    (hA : segsA ≠ []) (hgood : ∀ s ∈ segsA, s = [] ∨ goodSeg s = true)
    (hb : goodSeg b = true) (hc : goodSeg c = true) :
    goJoin ['/' :: ['/'].intercalate segsA, b, c] =
      '/' :: ['/'].intercalate (segsA.filter (fun s => !s.isEmpty) ++ [b, c]) := by
  rw [goJoin_eq _ _ (by simp)]
  rw [intercalate_cons _ _ (by simp)]
  have h1 : ('/' :: ['/'].intercalate segsA) ++ '/' :: ['/'].intercalate [b, c]
      = '/' :: ['/'].intercalate (segsA ++ [b, c]) := by
    rw [intercalate_append_segs segsA [b, c] hA (by simp)]
    simp
  rw [h1, goClean_rooted _ (by simp [hA]) (fun t ht => by
    rcases List.mem_append.mp ht with ht | ht
    · exact hgood t ht
    · rcases List.mem_cons.mp ht with ht | ht
      · exact Or.inr (ht ▸ hb)
      · simp only [List.mem_singleton] at ht
        exact Or.inr (ht ▸ hc))]
  rw [List.filter_append]
  simp [goodSeg_not_isEmpty hb, goodSeg_not_isEmpty hc]

/-- Join of a rooted base with one further clean segment collapses to
plain concatenation (up to empty segments dropped from the base). -/
theorem goJoin2_rooted (segsA : List (List Char)) (b : List Char)
    (hA : segsA ≠ []) (hgood : ∀ s ∈ segsA, s = [] ∨ goodSeg s = true)
    (hb : goodSeg b = true) :
    goJoin ['/' :: ['/'].intercalate segsA, b] =
      '/' :: ['/'].intercalate (segsA.filter (fun s => !s.isEmpty) ++ [b]) := by
  rw [goJoin_eq _ _ (by simp)]
  rw [intercalate_cons _ _ (by simp), intercalate_singleton]
  have h1 : ('/' :: ['/'].intercalate segsA) ++ '/' :: b
      = '/' :: ['/'].intercalate (segsA ++ [b]) := by
    rw [intercalate_append_segs segsA [b] hA (by simp), intercalate_singleton]
    simp
  rw [h1, goClean_rooted _ (by simp [hA]) (fun t ht => by
    rcases List.mem_append.mp ht with ht | ht
    · exact hgood t ht
    · simp only [List.mem_singleton] at ht
      exact Or.inr (ht ▸ hb))]
  rw [List.filter_append]
  simp [goodSeg_not_isEmpty hb]

/-- takeWhile runs through a satisfying block and stops at the first
failing element. -/
theorem takeWhile_append_stop {p : Char → Bool} (xs : List Char)
    (h : ∀ x ∈ xs, p x = true) (y : Char) (hy : p y = false) (ys : List Char) :
    (xs ++ y :: ys).takeWhile p = xs := by
  induction xs with
  | nil => simp [List.takeWhile_cons, hy]
  | cons x xs ih =>
    have hx := h x (by simp)
    simp [List.takeWhile_cons, hx, ih (fun z hz => h z (by simp [hz]))]

/-- Split of a path whose directory part ends in the separator and whose
file part is separator-free. -/
theorem filepathSplit_slashEnd (q name : List Char) (hname : '/' ∉ name) :
    filepathSplit ((q ++ ['/']) ++ name) = (q ++ ['/'], name) := by
  simp only [filepathSplit]
  have h1 : ((q ++ ['/']) ++ name).reverse = name.reverse ++ '/' :: q.reverse := by
    simp
  rw [h1]
  rw [takeWhile_append_stop name.reverse
    (fun x hx => by
      have hxn : x ∈ name := List.mem_reverse.mp hx
      have hne : x ≠ '/' := fun hEq => hname (hEq ▸ hxn)
      simpa using hne)
    '/' (by simp) q.reverse]
  have h2 : ((q ++ ['/']) ++ name).length - name.reverse.length
      = (q ++ ['/']).length := by
    simp
    omega
  rw [h2]
  have h3 : ((q ++ ['/']) ++ name).take (q ++ ['/']).length = q ++ ['/'] :=
    List.take_left _ _
  rw [h3]
  simp

/-- Replacing separators by underscores leaves no separator behind. -/
theorem underscoreSeparators_no_slash (s : List Char) :
    '/' ∉ underscoreSeparators s := by
  intro h
  obtain ⟨x, hx, hfx⟩ := List.mem_map.mp h
  by_cases hxs : x = '/'
  · rw [if_pos hxs] at hfx
    exact absurd hfx (by decide)
  · rw [if_neg hxs] at hfx
    exact hxs hfx

/-- The underscored form of a rooted path is a clean segment. -/
theorem underscoreSeparators_good (rest : List Char) :
    goodSeg (underscoreSeparators ('/' :: rest)) = true := by
  have h := underscoreSeparators_no_slash ('/' :: rest)
  simp only [underscoreSeparators, List.map_cons, if_pos rfl] at h ⊢
  simp only [goodSeg, Bool.and_eq_true, decide_eq_true_eq]
  refine ⟨⟨⟨by simp, fun hEq => ?_⟩, fun hEq => ?_⟩, h⟩
  · injection hEq with h1 _
    exact absurd h1 (by decide)
  · injection hEq with h1 _
    exact absurd h1 (by decide)

/-- Join of a rooted base, a relative multi-segment piece, and a final
clean segment collapses to plain concatenation. -/
theorem goJoin3_general (segsA segsB : List (List Char)) (c : List Char)
    (hA : segsA ≠ []) (hB : segsB ≠ [])
    (hgoodA : ∀ s ∈ segsA, s = [] ∨ goodSeg s = true)
    (hgoodB : ∀ s ∈ segsB, goodSeg s = true)
    (hc : goodSeg c = true) :
    goJoin ['/' :: ['/'].intercalate segsA, ['/'].intercalate segsB, c] =
      '/' :: ['/'].intercalate
        (segsA.filter (fun s => !s.isEmpty) ++ segsB ++ [c]) := by
  rw [goJoin_eq _ _ (by simp)]
  rw [intercalate_cons _ _ (by simp)]
  rw [intercalate_cons (['/'].intercalate segsB) [c] (by simp),
    intercalate_singleton]
  have h1 : ('/' :: ['/'].intercalate segsA) ++
        '/' :: (['/'].intercalate segsB ++ '/' :: c)
      = '/' :: ['/'].intercalate (segsA ++ segsB ++ [c]) := by
    rw [intercalate_append_segs (segsA ++ segsB) [c] (by simp [hA]) (by simp),
      intercalate_singleton,
      intercalate_append_segs segsA segsB hA hB]
    simp
  rw [h1, goClean_rooted _ (by simp [hA]) (fun t ht => by
    rcases List.mem_append.mp ht with ht | ht
    · rcases List.mem_append.mp ht with ht | ht
      · exact hgoodA t ht
      · exact Or.inr (hgoodB t ht)
    · simp only [List.mem_singleton] at ht
      exact Or.inr (ht ▸ hc))]
  rw [List.filter_append, List.filter_append]
  have hBf : segsB.filter (fun s => !s.isEmpty) = segsB :=
    List.filter_eq_self.mpr (fun s hs => by
      simp [goodSeg_not_isEmpty (hgoodB s hs)])
  rw [hBf]
  simp [goodSeg_not_isEmpty hc]

/-- A separator-free nonempty string does not start with the separator. -/
theorem isPrefixOf_slash_false (l : List Char) (hne : l ≠ []) (hns : '/' ∉ l)
    (t : List Char) : ['/'].isPrefixOf (l ++ t) = false := by
  cases l with
  | nil => exact absurd rfl hne
  | cons c cs =>
    have hc : c ≠ '/' := fun h => hns (by simp [h])
    have hc2 : ¬('/' = c) := fun h => hc h.symm
    simp [List.isPrefixOf, hc2]

/-- C3 (amended): over clean path components, an absolute cache directory
gives binary directory `cache_root/<full script path with separators
replaced by underscores>/<toolchain tag>` — the full script path, not
just its directory — and a relative cache directory gives
`<script dir>/<cache_root>/<toolchain tag>`; the binary file name is the
script name with the first occurrence of its extension string removed
(plus ".exe" on Windows). -/
theorem binaryLocator_amended (dirSegs cacheSegs : List (List Char))
    (name toolTag : List Char) (isWindows : Bool)
    (hdirne : dirSegs ≠ []) (hdir : ∀ s ∈ dirSegs, goodSeg s = true)
    (hcachene : cacheSegs ≠ []) (hcache : ∀ s ∈ cacheSegs, goodSeg s = true)
    (hname : goodSeg name = true) (htag : goodSeg toolTag = true)
    (hstripped : goodSeg (removeFirst (filepathExt name) name) = true) :
    binaryDirOf ('/' :: ['/'].intercalate cacheSegs)
        ('/' :: ['/'].intercalate (dirSegs ++ [name])) toolTag =
      ('/' :: ['/'].intercalate cacheSegs) ++
        '/' :: underscoreSeparators
          ('/' :: ['/'].intercalate (dirSegs ++ [name])) ++
        '/' :: toolTag ∧
    binaryDirOf (['/'].intercalate cacheSegs)
        ('/' :: ['/'].intercalate (dirSegs ++ [name])) toolTag =
      ('/' :: ['/'].intercalate dirSegs) ++
        '/' :: ['/'].intercalate cacheSegs ++ '/' :: toolTag ∧
    binaryPathOf ('/' :: ['/'].intercalate cacheSegs)
        ('/' :: ['/'].intercalate (dirSegs ++ [name])) toolTag isWindows =
      binaryDirOf ('/' :: ['/'].intercalate cacheSegs)
          ('/' :: ['/'].intercalate (dirSegs ++ [name])) toolTag ++
        '/' :: removeFirst (filepathExt name) name ++
        (if isWindows then ".exe".toList else []) := by
  have hcf : cacheSegs.filter (fun s => !s.isEmpty) = cacheSegs :=
    List.filter_eq_self.mpr (fun s hs => by
      simp [goodSeg_not_isEmpty (hcache s hs)])
  have hns : '/' ∉ name := by
    simp only [goodSeg, Bool.and_eq_true, decide_eq_true_eq] at hname
    exact hname.2
  have hscript : '/' :: ['/'].intercalate (dirSegs ++ [name])
      = (('/' :: ['/'].intercalate dirSegs) ++ ['/']) ++ name := by
    rw [intercalate_append_segs dirSegs [name] hdirne (by simp),
      intercalate_singleton]
    simp
  have habs : ['/'].isPrefixOf ('/' :: ['/'].intercalate cacheSegs) = true := by
    simp [List.isPrefixOf]
  have hgoodsub : goodSeg (underscoreSeparators
      ('/' :: ['/'].intercalate (dirSegs ++ [name]))) = true :=
    underscoreSeparators_good _
  -- the absolute-branch binary directory in canonical stacked-segment form
  have hdirAbs : binaryDirOf ('/' :: ['/'].intercalate cacheSegs)
      ('/' :: ['/'].intercalate (dirSegs ++ [name])) toolTag =
      '/' :: ['/'].intercalate (cacheSegs ++
        [underscoreSeparators ('/' :: ['/'].intercalate (dirSegs ++ [name])),
          toolTag]) := by
    simp only [binaryDirOf, if_pos habs]
    have h2 := goJoin3_general cacheSegs
      [underscoreSeparators ('/' :: ['/'].intercalate (dirSegs ++ [name]))]
      toolTag hcachene (by simp) (fun s hs => Or.inr (hcache s hs))
      (fun s hs => by
        simp only [List.mem_singleton] at hs
        exact hs ▸ hgoodsub)
      htag
    rw [intercalate_singleton] at h2
    rw [h2, hcf]
    simp
  have hcanon : ∀ z : List Char, ('/' :: ['/'].intercalate (cacheSegs ++
      [underscoreSeparators ('/' :: ['/'].intercalate (dirSegs ++ [name])),
        z])) = ('/' :: ['/'].intercalate cacheSegs) ++
        '/' :: underscoreSeparators
          ('/' :: ['/'].intercalate (dirSegs ++ [name])) ++ '/' :: z := by
    intro z
    rw [intercalate_append_segs cacheSegs _ hcachene (by simp),
      intercalate_cons _ [z] (by simp), intercalate_singleton]
    simp
  refine ⟨by rw [hdirAbs, hcanon], ?_, ?_⟩
  · -- relative branch
    have hrelpref : ['/'].isPrefixOf (['/'].intercalate cacheSegs) = false := by
      cases cacheSegs with
      | nil => exact absurd rfl hcachene
      | cons cseg rest =>
        have hcg := hcache cseg (by simp)
        simp only [goodSeg, Bool.and_eq_true, decide_eq_true_eq] at hcg
        cases rest with
        | nil =>
          rw [intercalate_singleton]
          have h3 := isPrefixOf_slash_false cseg hcg.1.1.1 hcg.2 []
          simpa using h3
        | cons r rs =>
          rw [intercalate_cons cseg (r :: rs) (by simp)]
          exact isPrefixOf_slash_false cseg hcg.1.1.1 hcg.2 _
    simp only [binaryDirOf, hrelpref, Bool.false_eq_true, if_false]
    rw [hscript, filepathSplit_slashEnd _ _ hns]
    have hq : ('/' :: ['/'].intercalate dirSegs) ++ ['/']
        = '/' :: ['/'].intercalate (dirSegs ++ [[]]) := by
      rw [intercalate_append_segs dirSegs [[]] hdirne (by simp),
        intercalate_singleton]
      simp
    rw [hq]
    have h2 := goJoin3_general (dirSegs ++ [[]]) cacheSegs toolTag
      (by simp) hcachene
      (fun s hs => by
        rcases List.mem_append.mp hs with hs | hs
        · exact Or.inr (hdir s hs)
        · simp only [List.mem_singleton] at hs
          exact Or.inl hs)
      hcache htag
    rw [h2]
    have hdf : (dirSegs ++ [[]]).filter (fun s => !s.isEmpty) = dirSegs := by
      rw [List.filter_append]
      have : dirSegs.filter (fun s => !s.isEmpty) = dirSegs :=
        List.filter_eq_self.mpr (fun s hs => by
          simp [goodSeg_not_isEmpty (hdir s hs)])
      simp [this]
    rw [hdf]
    rw [intercalate_append_segs (dirSegs ++ cacheSegs) [toolTag]
        (by simp [hdirne]) (by simp), intercalate_singleton,
      intercalate_append_segs dirSegs cacheSegs hdirne hcachene]
    simp
  · -- binary path
    simp only [binaryPathOf]
    rw [hscript, filepathSplit_slashEnd _ _ hns]
    rw [← hscript, hdirAbs]
    have h2 := goJoin2_rooted (cacheSegs ++
        [underscoreSeparators ('/' :: ['/'].intercalate (dirSegs ++ [name])),
          toolTag])
      (removeFirst (filepathExt name) name)
      (by simp [hcachene]) (fun s hs => by
        rcases List.mem_append.mp hs with hs | hs
        · exact Or.inr (hcache s hs)
        · rcases List.mem_cons.mp hs with hs | hs
          · exact Or.inr (hs ▸ hgoodsub)
          · simp only [List.mem_singleton] at hs
            exact Or.inr (hs ▸ htag))
      hstripped
    rw [h2]
    have hall : ((cacheSegs ++
        [underscoreSeparators ('/' :: ['/'].intercalate (dirSegs ++ [name])),
          toolTag]).filter (fun s => !s.isEmpty)) = cacheSegs ++
        [underscoreSeparators ('/' :: ['/'].intercalate (dirSegs ++ [name])),
          toolTag] := by
      rw [List.filter_append, hcf]
      simp [goodSeg_not_isEmpty hgoodsub, goodSeg_not_isEmpty htag]
    rw [hall]
    rw [intercalate_append_segs (cacheSegs ++ [underscoreSeparators
        ('/' :: ['/'].intercalate (dirSegs ++ [name])), toolTag])
        [removeFirst (filepathExt name) name] (by simp [hcachene]) (by simp),
      intercalate_singleton]
    cases isWindows <;> simp

theorem binaryLocator_amended_check :
    binaryDirOf ('/' :: ['/'].intercalate ["cache".toList])
        ('/' :: ['/'].intercalate (["a".toList] ++ ["b.go".toList]))
        "tool".toList =
      ('/' :: ['/'].intercalate ["cache".toList]) ++
        '/' :: underscoreSeparators
          ('/' :: ['/'].intercalate (["a".toList] ++ ["b.go".toList])) ++
        '/' :: "tool".toList :=
  (binaryLocator_amended ["a".toList] ["cache".toList] "b.go".toList
    "tool".toList false (by decide) (by decide) (by decide) (by decide)
    (by decide) (by decide) (by decide)).1

/-- C3, the claim as stated, refuted: with an absolute cache directory
the binary directory is keyed by the full script path, not by the script
directory with separators replaced; and the binary file name is not in
general the base name with its extension stripped from the end. -/
theorem binaryLocator_counterexample :
    (binaryDirOf "/cache".toList "/a/b.go".toList "tool".toList
      ≠ specBinaryDirAbs "/cache".toList "/a/b.go".toList "tool".toList) ∧
    (binaryPathOf ".goplay".toList "/d/a.go.b.go".toList "tool".toList false
      ≠ binaryDirOf ".goplay".toList "/d/a.go.b.go".toList "tool".toList ++
        '/' :: stripExtSuffix "a.go.b.go".toList) := by
  decide

end Goplay
